import Mathlib

/-!
Verification of the ModGuard conflict-detection and fix-planning engine.

This file is a shallow embedding, in Lean 4, of the core of the ModGuard
system (`src/modguard`): the package/module data model
(`models/conflict.py`, `models/fix_plan.py`), the dependency graph
(`dependency/graph.py`), the collision detector
(`detector/collision_detector.py`) and the fix engine (`fix/engine.py`).

Modelling conventions:
* Python `dict`s (which preserve insertion order) are modelled as
  association lists `List (Key × Value)`; assignment to an existing key
  keeps its position, a new key is appended at the end, exactly as in
  CPython.
* Python `set`s of strings are modelled as duplicate-free lists in
  insertion order.  Every property proved below about data flowing
  through such a set is independent of iteration order.
* Python strings are Lean `String`s; `str.startswith` is a prefix test
  on the character list, the `in` substring test is a contiguous
  sublist test on the character list.
* File-system access (`os.walk` plus the regex scan in
  `_find_imports_in_file`) is the external source-scanning boundary:
  `analyze_project_imports` is modelled as a function of the scanner's
  output, a list of `(file path, per-module import statements)` pairs,
  which is exactly the data the Python loop from line 119 of
  `collision_detector.py` consumes.
* The two file-mutating fix executors (`_apply_shim_fix`,
  `_apply_version_constraint_fix`) are external I/O collaborators;
  `apply_fixes` is modelled as a function parametric in them.
-/

namespace ModGuard

/-! ### Association-list primitives (Python `dict` / `set` semantics) -/

/-- Lookup in an insertion-ordered association list (Python `d[k]` /
`d.get(k)`): the first entry with the given key. -/
def alGet {α : Type} (m : List (String × α)) (k : String) : Option α :=
  (m.find? (fun e => e.1 = k)).map Prod.snd

/-- Python `d[k] = v`: overwrite in place if the key exists, else append. -/
def alSet {α : Type} : List (String × α) → String → α → List (String × α)
  | [], k, v => [(k, v)]
  | e :: rest, k, v => if e.1 = k then (k, v) :: rest else e :: alSet rest k v

/-- Python `d.setdefault(k, []).append(x)` (the `if k not in d: d[k] = []`
then `d[k].append(x)` idiom used throughout the detector). -/
def dictAppend {α : Type} : List (String × List α) → String → α → List (String × List α)
  | [], k, x => [(k, [x])]
  | e :: rest, k, x => if e.1 = k then (e.1, e.2 ++ [x]) :: rest else e :: dictAppend rest k x

/-- Python `s.add(x)` on a set modelled as a duplicate-free list. -/
def setAdd (s : List String) (x : String) : List String :=
  if x ∈ s then s else s ++ [x]

/-- Python `d.setdefault(k, set()).add(x)` as used by `add_import_path`. -/
def dictSetAdd : List (String × List String) → String → String → List (String × List String)
  | [], k, x => [(k, [x])]
  | e :: rest, k, x => if e.1 = k then (e.1, setAdd e.2 x) :: rest else e :: dictSetAdd rest k x

/-- Python `d[k] = d.get(k, 0) + 1` on a counter dictionary. -/
def bump : List (String × Nat) → String → List (String × Nat)
  | [], k => [(k, 1)]
  | e :: rest, k => if e.1 = k then (e.1, e.2 + 1) :: rest else e :: bump rest k

/-- Count lookup with default 0 (Python `d.get(k, 0)`). -/
def countOf (m : List (String × Nat)) (k : String) : Nat :=
  (alGet m k).getD 0

/-- Python `s.startswith(pre)`: `pre` is a prefix of `s`. -/
def pyStartsWith (s pre : String) : Bool :=
  pre.data.isPrefixOf s.data

/-- Contiguous-sublist test on character lists, for Python's substring
`needle in hay`. -/
def subListB (n : List Char) : List Char → Bool
  | [] => n.isEmpty
  | c :: t => n.isPrefixOf (c :: t) || subListB n t

/-- Python `needle in hay` on strings (substring containment). -/
def pyContains (hay needle : String) : Bool :=
  subListB needle.data hay.data

/-- Lexicographic (code-point) order on character lists, Python's string
comparison used by `sorted`. -/
def lexLe : List Char → List Char → Bool
  | [], _ => true
  | _ :: _, [] => false
  | a :: as, b :: bs =>
      if a.toNat < b.toNat then true
      else if b.toNat < a.toNat then false
      else lexLe as bs

/-- Python `a <= b` on strings. -/
def strLe (a b : String) : Bool := lexLe a.data b.data

/-! ### Data model (`models/conflict.py`) -/

/-- Information about a Python package (`PackageInfo`). -/
structure PackageInfo where
  name : String
  version : String
deriving DecidableEq, Repr

/-- Information about a Python module (`ModuleInfo`). -/
structure ModuleInfo where
  name : String
  path : String
  package : PackageInfo
deriving DecidableEq, Repr

/-- Report of module namespace conflicts (`ConflictReport`): module name →
list of conflicting modules, a Python dict in insertion order. -/
structure ConflictReport where
  conflicts : List (String × List ModuleInfo)
deriving DecidableEq, Repr

/-- Method `ConflictReport.add_conflict`. -/
def ConflictReport.add_conflict (r : ConflictReport) (module_name : String)
    (module_info : ModuleInfo) : ConflictReport :=
  ⟨dictAppend r.conflicts module_name module_info⟩

/-- Method `ConflictReport.has_conflicts`:
`any(len(modules) > 1 for modules in self.conflicts.values())`. -/
def ConflictReport.has_conflicts (r : ConflictReport) : Bool :=
  r.conflicts.any (fun e => 1 < e.2.length)

/-- Method `ConflictReport.get_conflict_count`:
`sum(1 for modules in self.conflicts.values() if len(modules) > 1)`. -/
def ConflictReport.get_conflict_count (r : ConflictReport) : Nat :=
  (r.conflicts.filter (fun e => 1 < e.2.length)).length

/-- Extended conflict report with severity and usage analysis
(`DetailedConflictReport`, which extends `ConflictReport` with the
`severities` dict and the `import_paths` dict of sets). -/
structure DetailedConflictReport where
  conflicts : List (String × List ModuleInfo)
  severities : List (String × String)
  import_paths : List (String × List String)
deriving DecidableEq, Repr

/-- Method `DetailedConflictReport.set_severity`:
`self.severities[module_name] = severity` (an overwrite). -/
def DetailedConflictReport.set_severity (r : DetailedConflictReport)
    (module_name severity : String) : DetailedConflictReport :=
  { r with severities := alSet r.severities module_name severity }

/-- Method `DetailedConflictReport.add_import_path`. -/
def DetailedConflictReport.add_import_path (r : DetailedConflictReport)
    (module_name import_path : String) : DetailedConflictReport :=
  { r with import_paths := dictSetAdd r.import_paths module_name import_path }

/-! ### Collision detector (`detector/collision_detector.py`) -/

/-- All module records of an inventory in aggregation order: package
iteration order, then within-package item order.  This is the order in
which `detect_collisions`'s first loop visits records. -/
def allRecords : List (String × List ModuleInfo) → List ModuleInfo
  | [] => []
  | e :: rest => e.2 ++ allRecords rest

/-- Static method `CollisionDetector.detect_collisions`: build
`module_map` by appending every record of every package under its module
name, then flag every name whose records span more than one distinct
owner package name (`len({module.package.name ...}) > 1`), appending all
of its records to the report. -/
def detect_collisions (modules_by_package : List (String × List ModuleInfo)) :
    ConflictReport :=
  let module_map : List (String × List ModuleInfo) :=
    modules_by_package.foldl
      (fun m e => e.2.foldl (fun m mi => dictAppend m mi.name mi) m) []
  module_map.foldl
    (fun r e =>
      if 1 < ((e.2.map (fun mi => mi.package.name)).dedup).length then
        e.2.foldl (fun r mi => r.add_conflict e.1 mi) r
      else r)
    ⟨[]⟩

/-- Severity heuristic applied per usage site inside
`analyze_project_imports`: a statement that starts with
`import <name>` or `from <name> import` is HIGH, anything else MEDIUM. -/
def classify (module_name import_stmt : String) : String :=
  if pyStartsWith import_stmt ("import " ++ module_name)
      || pyStartsWith import_stmt ("from " ++ module_name ++ " import") then "HIGH"
  else "MEDIUM"

/-- Body of the innermost loop of `analyze_project_imports`: record the
usage site, then (re)set the module's severity from this statement. -/
def processSite (r : DetailedConflictReport)
    (module_name file_path import_stmt : String) : DetailedConflictReport :=
  (r.add_import_path module_name (file_path ++ ": " ++ import_stmt)).set_severity
    module_name (classify module_name import_stmt)

/-- Per-(file, conflicting module) step of `analyze_project_imports`:
`if module_name in file_imports: for import_stmt in file_imports[module_name]: ...`. -/
def processFileModule (r : DetailedConflictReport) (module_name file_path : String)
    (file_imports : List (String × List String)) : DetailedConflictReport :=
  match alGet file_imports module_name with
  | none => r
  | some stmts => stmts.foldl (fun r stmt => processSite r module_name file_path stmt) r

/-- Class method `CollisionDetector.analyze_project_imports`, as a
function of the source scanner's output `project_files` (one entry per
discovered file: its path and the per-top-level-module import statements
that `_find_imports_in_file` extracted from it). -/
def analyze_project_imports
    (project_files : List (String × List (String × List String)))
    (conflict_report : ConflictReport) : DetailedConflictReport :=
  let conflicting_modules := (conflict_report.conflicts.map Prod.fst).dedup
  project_files.foldl
    (fun r f => conflicting_modules.foldl (fun r m => processFileModule r m f.1 f.2) r)
    ⟨conflict_report.conflicts, [], []⟩

/-- Class method `CollisionDetector.scan_project`. -/
def scan_project (project_files : List (String × List (String × List String)))
    (modules_by_package : List (String × List ModuleInfo)) : DetailedConflictReport :=
  analyze_project_imports project_files (detect_collisions modules_by_package)

/-- Statements recorded for module `m` across all project files in
processing order (files in discovery order, statements within a file in
the scanner's order). -/
def sitesFor (project_files : List (String × List (String × List String)))
    (m : String) : List String :=
  match project_files with
  | [] => []
  | f :: rest => (alGet f.2 m).getD [] ++ sitesFor rest m

/-! ### Dependency graph (`dependency/graph.py`)

Python `DependencyNode`s are mutually referencing heap objects with
equality and hash keyed by `package.name`; every node that ever appears
in a `dependencies` list is the canonical node stored in
`DependencyGraph.nodes` under its name.  The embedding therefore stores
adjacency as a list of node names and resolves them through the graph's
node table. -/

/-- A node of the dependency graph: its package and its outgoing edges
(dependency node names, in insertion order, duplicates suppressed). -/
structure DependencyNode where
  package : PackageInfo
  dependencies : List String
deriving DecidableEq, Repr

/-- Method `DependencyNode.add_dependency`: append unless an equal node
(equality is by package name) is already present. -/
def DependencyNode.add_dependency (n : DependencyNode) (child : String) : DependencyNode :=
  if child ∈ n.dependencies then n else { n with dependencies := n.dependencies ++ [child] }

/-- A graph of package dependencies (`DependencyGraph`): a dict from
package name to node, in insertion order. -/
structure DependencyGraph where
  nodes : List (String × DependencyNode)
deriving DecidableEq, Repr

/-- Python `package_name in self.nodes`. -/
def DependencyGraph.hasNode (g : DependencyGraph) (name : String) : Bool :=
  g.nodes.any (fun e => e.1 = name)

/-- Lookup `self.nodes[name]`. -/
def DependencyGraph.findNode (g : DependencyGraph) (name : String) : Option DependencyNode :=
  (g.nodes.find? (fun e => e.1 = name)).map Prod.snd

/-- Node names of the graph, in insertion order. -/
def DependencyGraph.keys (g : DependencyGraph) : List String :=
  g.nodes.map Prod.fst

/-- Package stored at a node name, if the node exists. -/
def DependencyGraph.pkgOf (g : DependencyGraph) (name : String) : Option PackageInfo :=
  (g.findNode name).map DependencyNode.package

/-- Dependency names of a node (empty for an unknown name). -/
def DependencyGraph.depsOf (g : DependencyGraph) (name : String) : List String :=
  ((g.findNode name).map DependencyNode.dependencies).getD []

/-- Method `DependencyGraph.add_node`: insert a fresh node unless the
package name is already present (idempotent on name; an existing node
keeps the package that was inserted first). -/
def DependencyGraph.add_node (g : DependencyGraph) (package : PackageInfo) :
    DependencyGraph :=
  if g.hasNode package.name then g else ⟨g.nodes ++ [(package.name, ⟨package, []⟩)]⟩

/-- Update step of `add_dependency`: the in-place mutation
`parent_node.add_dependency(child_node)` on the node table. -/
def edgeUpd (pn cn : String) (e : String × DependencyNode) : String × DependencyNode :=
  if e.1 = pn then (e.1, e.2.add_dependency cn) else e

/-- Method `DependencyGraph.add_dependency`: add both endpoint nodes,
then the deduplicated edge parent→child. -/
def DependencyGraph.add_dependency (g : DependencyGraph) (parent child : PackageInfo) :
    DependencyGraph :=
  ⟨((g.add_node parent).add_node child).nodes.map (edgeUpd parent.name child.name)⟩

/-- Python `result.add(pkg)` on the result set of the traversal.
`PackageInfo` is a plain (non-frozen, `eq=True`) dataclass, which makes
Python set `PackageInfo.__hash__ = None`: instances are unhashable, and
`set.add` on one raises `TypeError: unhashable type: 'PackageInfo'`.
The insertion therefore never succeeds; `none` models the raised
exception. -/
def insertPkg (res : List PackageInfo) (p : PackageInfo) : Option (List PackageInfo) :=
  none

/-- One expansion step of `get_all_dependencies`: for every edge out of
the node being visited, add the target node's package to the result set
(Python `result.add(dep.package)`, executed for every dependency,
visited or not).  The first insertion raises, aborting the whole
function call, so the interleaved `to_visit.append` bookkeeping of the
aborted iteration is unobservable and handled after this step. -/
def addDepsPkgs (g : DependencyGraph) : List String → List PackageInfo →
    Option (List PackageInfo)
  | [], res => some res
  | d :: t, res =>
      match g.pkgOf d with
      | some p =>
          match insertPkg res p with
          | some res2 => addDepsPkgs g t res2
          | none => none
      | none => addDepsPkgs g t res

theorem filter_cons_sublist_filter (l : List String) (n : String) (vis : List String) :
    (l.filter (fun k => ¬ k ∈ n :: vis)).Sublist (l.filter (fun k => ¬ k ∈ vis)) := by
  apply List.monotone_filter_right
  intro a ha
  simp only [decide_eq_true_eq, List.mem_cons, not_or] at *
  exact ha.2

theorem filter_cons_length_lt {l : List String} {n : String} {vis : List String}
    (hn : n ∈ l) (hnv : n ∉ vis) :
    (l.filter (fun k => ¬ k ∈ n :: vis)).length < (l.filter (fun k => ¬ k ∈ vis)).length := by
  have hsub := filter_cons_sublist_filter l n vis
  rcases Nat.lt_or_ge (l.filter (fun k => ¬ k ∈ n :: vis)).length
      (l.filter (fun k => ¬ k ∈ vis)).length with h | h
  · exact h
  · exfalso
    have heq := hsub.eq_of_length (Nat.le_antisymm hsub.length_le h)
    have hmem : n ∈ l.filter (fun k => ¬ k ∈ vis) := by
      simp only [List.mem_filter, decide_eq_true_eq]
      exact ⟨hn, hnv⟩
    rw [← heq] at hmem
    have h2 := (List.mem_filter.mp hmem).2
    simp at h2

theorem filter_cons_length_eq {l : List String} {n : String} {vis : List String}
    (hn : n ∉ l) :
    (l.filter (fun k => ¬ k ∈ n :: vis)).length = (l.filter (fun k => ¬ k ∈ vis)).length := by
  congr 1
  apply List.filter_congr
  intro a ha
  have : a ≠ n := fun h => hn (h ▸ ha)
  simp [this]

theorem findNode_none_not_mem_keys {g : DependencyGraph} {n : String}
    (h : g.findNode n = none) : n ∉ g.keys := by
  intro hmem
  unfold DependencyGraph.findNode at h
  rw [Option.map_eq_none', List.find?_eq_none] at h
  unfold DependencyGraph.keys at hmem
  rcases List.mem_map.mp hmem with ⟨e, he, hfst⟩
  exact (h e he) (by simp [hfst])

theorem findNode_some_mem_keys {g : DependencyGraph} {n : String} {nd : DependencyNode}
    (h : g.findNode n = some nd) : n ∈ g.keys := by
  unfold DependencyGraph.findNode at h
  rcases Option.map_eq_some'.mp h with ⟨e, he, _⟩
  have hmem := List.mem_of_find?_eq_some he
  have hfst := List.find?_some he
  simp only [decide_eq_true_eq] at hfst
  unfold DependencyGraph.keys
  exact hfst ▸ List.mem_map_of_mem Prod.fst hmem

/-- Worklist loop of `DependencyGraph.get_all_dependencies`.  The Lean
stack models the Python `to_visit` list with its top at the head
(Python pops from the end and appends, so the pushed dependency names
appear reversed at the head).  The `visited` check on pop, the marking
before expansion, and the `result.add(dep.package)` per edge — which
raises `TypeError` on the unhashable `PackageInfo`, propagated here as
`none` — mirror the Python loop line for line.  Termination of the loop
itself (the point of the explicit visited set) is by the lexicographic
measure (unvisited graph keys, stack length). -/
def walk (g : DependencyGraph) : List String → List String → List PackageInfo →
    Option (List PackageInfo)
  | [], _, res => some res
  | n :: st, vis, res =>
    if n ∈ vis then walk g st vis res
    else
      match hf : g.findNode n with
      | none => walk g st (n :: vis) res
      | some nd =>
          match addDepsPkgs g nd.dependencies res with
          | none => none
          | some res2 =>
              walk g ((nd.dependencies.filter (fun d => ¬ d ∈ n :: vis)).reverse ++ st)
                (n :: vis) res2
termination_by st vis _ => ((g.keys.filter (fun k => ¬ k ∈ vis)).length, st.length)
decreasing_by
  · apply Prod.Lex.right
    simp
  · rename_i hnv
    have h1 := @filter_cons_length_eq g.keys n vis (findNode_none_not_mem_keys hf)
    rw [h1]
    apply Prod.Lex.right
    simp
  · rename_i hnv
    apply Prod.Lex.left
    exact filter_cons_length_lt (findNode_some_mem_keys hf) hnv

/-- Method `DependencyGraph.get_all_dependencies`: transitive dependency
set of a package, by worklist traversal with an explicit visited set.
`none` models the `TypeError` that `result.add(dep.package)` raises; a
name absent from the graph returns the empty set. -/
def DependencyGraph.get_all_dependencies (g : DependencyGraph) (package_name : String) :
    Option (List PackageInfo) :=
  if g.hasNode package_name then walk g [package_name] [] [] else some []

/-! ### Fix plan model (`models/fix_plan.py`) -/

/-- Kinds of fixes for module conflicts (`FixType`). -/
inductive FixType where
  | RENAME_SHIM
  | VERSION_CONSTRAINT
  | ISOLATION
  | MANUAL
deriving DecidableEq, Repr

/-- Python `str(fix_type)` on the enum member, used in the unhandled-kind
message of `apply_fixes`. -/
def fixTypeStr : FixType → String
  | .RENAME_SHIM => "FixType.RENAME_SHIM"
  | .VERSION_CONSTRAINT => "FixType.VERSION_CONSTRAINT"
  | .ISOLATION => "FixType.ISOLATION"
  | .MANUAL => "FixType.MANUAL"

/-- A specific action to fix a module conflict (`FixAction`); `details`
is the kind-specific string-to-string parameter dict. -/
structure FixAction where
  fix_type : FixType
  module_name : String
  package_name : String
  details : List (String × String)
deriving DecidableEq, Repr

/-- A plan to fix module conflicts (`FixPlan`). -/
structure FixPlan where
  conflict_report : DetailedConflictReport
  actions : List FixAction
deriving DecidableEq, Repr

/-- Method `FixPlan.add_action`. -/
def FixPlan.add_action (p : FixPlan) (a : FixAction) : FixPlan :=
  { p with actions := p.actions ++ [a] }

/-- Method `FixPlan.get_actions_for_module`. -/
def FixPlan.get_actions_for_module (p : FixPlan) (module_name : String) : List FixAction :=
  p.actions.filter (fun a => a.module_name = module_name)

/-- A record of a fix that has been applied (`AppliedFix`). -/
structure AppliedFix where
  action : FixAction
  success : Bool
  details : String
deriving DecidableEq, Repr

/-- The result of applying a fix plan (`FixResult`). -/
structure FixResult where
  plan : FixPlan
  applied_fixes : List AppliedFix
deriving DecidableEq, Repr

/-- Method `FixResult.add_result`. -/
def FixResult.add_result (r : FixResult) (fix : AppliedFix) : FixResult :=
  { r with applied_fixes := r.applied_fixes ++ [fix] }

/-! ### Fix engine (`fix/engine.py`) -/

/-- Severity of a module in a report with the MEDIUM default
(Python `report.severities.get(module_name, "MEDIUM")`). -/
def severityOf (report : DetailedConflictReport) (module_name : String) : String :=
  (alGet report.severities module_name).getD "MEDIUM"

/-- Static method `FixEngine._should_use_shim` (source name has a leading
underscore): shims for MEDIUM/LOW severity. -/
def should_use_shim (module_name : String) (report : DetailedConflictReport) : Bool :=
  severityOf report module_name = "MEDIUM" || severityOf report module_name = "LOW"

/-- Static method `FixEngine._should_use_version_constraint` (source name
has a leading underscore): version constraints for CRITICAL/HIGH. -/
def should_use_version_constraint (module_name : String)
    (report : DetailedConflictReport) : Bool :=
  severityOf report module_name = "CRITICAL" || severityOf report module_name = "HIGH"

/-- Counter dictionary built by `FixEngine._get_preferred_packages`: for
every recorded usage site of the module and every record of the
conflict, bump the record's owner when its package name occurs as a
substring of the usage-site text.  A package owning several records is
therefore bumped once per record per matching site. -/
def package_counts (report : DetailedConflictReport) (module_name : String) :
    List (String × Nat) :=
  match alGet report.import_paths module_name with
  | none => []
  | some paths =>
      paths.foldl
        (fun counts path =>
          ((alGet report.conflicts module_name).getD []).foldl
            (fun counts mi =>
              if pyContains path mi.package.name then bump counts mi.package.name else counts)
            counts)
        []

/-- Static method `FixEngine._get_preferred_packages` (source name has a
leading underscore): the counted package names sorted by count,
descending.  Python's `sorted(keys, key=count, reverse=True)` is the
stable descending sort, which `List.insertionSort` with the reflexive
total preorder `count b ≤ count a` computes. -/
def get_preferred_packages (module_name : String)
    (report : DetailedConflictReport) : List String :=
  let counts := package_counts report module_name
  List.insertionSort (fun a b => countOf counts b ≤ countOf counts a) (counts.map Prod.fst)

/-- Keeper package of the RENAME_SHIM branch of `suggest_fixes`:
`preferred_packages[0]` after substituting the lexicographically sorted
record owner names when frequency ranking is empty.  (In the shim branch
`modules` has at least 2 entries, so the fallback list is nonempty and
the `""` default is never reached.) -/
def keeperFor (report : DetailedConflictReport) (module_name : String)
    (modules : List ModuleInfo) : String :=
  match get_preferred_packages module_name report with
  | [] =>
      (List.insertionSort (fun a b => strLe a b = true)
        (modules.map (fun mi => mi.package.name))).headD ""
  | p :: _ => p

/-- RENAME_SHIM action built in `suggest_fixes`. -/
def shimAction (module_name : String) (mi : ModuleInfo) : FixAction :=
  ⟨FixType.RENAME_SHIM, module_name, mi.package.name,
    [("renamed_to", mi.package.name ++ "." ++ module_name),
     ("original_name", module_name)]⟩

/-- VERSION_CONSTRAINT action built in `suggest_fixes`. -/
def versionAction (module_name : String) (mi : ModuleInfo) : FixAction :=
  ⟨FixType.VERSION_CONSTRAINT, module_name, mi.package.name,
    [("new_version", "latest"),
     ("current_version", mi.package.version)]⟩

/-- MANUAL action built in `suggest_fixes`. -/
def manualAction (module_name : String) (mi : ModuleInfo) : FixAction :=
  ⟨FixType.MANUAL, module_name, mi.package.name,
    [("reason", "Complex conflict requires manual intervention")]⟩

/-- Class method `FixEngine.suggest_fixes`: per conflict entry (in report
iteration order), skip record lists of length at most 1, choose the
strategy by severity, and append one action per record (per non-keeper
record in the shim branch). -/
def suggest_fixes (report : DetailedConflictReport) : FixPlan :=
  report.conflicts.foldl
    (fun plan e =>
      if e.2.length ≤ 1 then plan
      else if should_use_shim e.1 report then
        e.2.foldl
          (fun plan mi =>
            if mi.package.name ≠ keeperFor report e.1 e.2 then
              plan.add_action (shimAction e.1 mi)
            else plan)
          plan
      else if should_use_version_constraint e.1 report then
        e.2.foldl (fun plan mi => plan.add_action (versionAction e.1 mi)) plan
      else
        e.2.foldl (fun plan mi => plan.add_action (manualAction e.1 mi)) plan)
    ⟨report, []⟩

/-- Outcome of one action inside `FixEngine.apply_fixes`; the two
automated handlers (`_apply_shim_fix`, `_apply_version_constraint_fix`)
are external file-mutating collaborators passed as functions. -/
def outcomeOf (apply_shim apply_version : FixAction → AppliedFix) (dry_run : Bool)
    (action : FixAction) : AppliedFix :=
  if dry_run then ⟨action, true, "Dry run - not actually applied"⟩
  else if action.fix_type = FixType.RENAME_SHIM then apply_shim action
  else if action.fix_type = FixType.VERSION_CONSTRAINT then apply_version action
  else ⟨action, false,
    "Fix type " ++ fixTypeStr action.fix_type ++ " not implemented for automatic application"⟩

/-- Class method `FixEngine.apply_fixes`: one outcome per action, in plan
order, collected without short-circuiting. -/
def apply_fixes (apply_shim apply_version : FixAction → AppliedFix) (plan : FixPlan)
    (dry_run : Bool) : FixResult :=
  plan.actions.foldl
    (fun result action => result.add_result (outcomeOf apply_shim apply_version dry_run action))
    ⟨plan, []⟩

/-! ### Specification-side descriptions of the engine's outputs

The following definitions are not translations of further source code;
they are closed-form descriptions of what the folds above compute, used
as the right-hand sides of the characterization theorems below. -/

/-- Module map built by phase A of the detector, as a single fold over
the records in aggregation order. -/
def moduleMapOf (modules_by_package : List (String × List ModuleInfo)) :
    List (String × List ModuleInfo) :=
  (allRecords modules_by_package).foldl (fun m mi => dictAppend m mi.name mi) []

/-- Actions that `suggest_fixes` generates for one conflict entry. -/
def entryActions (report : DetailedConflictReport) (e : String × List ModuleInfo) :
    List FixAction :=
  if e.2.length ≤ 1 then []
  else if should_use_shim e.1 report then
    (e.2.filter (fun mi => mi.package.name ≠ keeperFor report e.1 e.2)).map (shimAction e.1)
  else if should_use_version_constraint e.1 report then e.2.map (versionAction e.1)
  else e.2.map (manualAction e.1)

/-- Concatenation of the per-entry actions over a conflict list. -/
def entriesActions (report : DetailedConflictReport) :
    List (String × List ModuleInfo) → List FixAction
  | [] => []
  | e :: rest => entryActions report e ++ entriesActions report rest

/-- Actions for one conflict entry as the specification states the
decision rule: severity (with the MEDIUM default) selects RENAME_SHIM
for MEDIUM/LOW, VERSION_CONSTRAINT with the `latest` sentinel for
CRITICAL/HIGH, and MANUAL otherwise — one action per record. -/
def entryActionsSpec (report : DetailedConflictReport) (e : String × List ModuleInfo) :
    List FixAction :=
  if e.2.length ≤ 1 then []
  else if severityOf report e.1 = "MEDIUM" ∨ severityOf report e.1 = "LOW" then
    (e.2.filter (fun mi => mi.package.name ≠ keeperFor report e.1 e.2)).map (shimAction e.1)
  else if severityOf report e.1 = "CRITICAL" ∨ severityOf report e.1 = "HIGH" then
    e.2.map (fun mi => FixAction.mk FixType.VERSION_CONSTRAINT e.1 mi.package.name
      [("new_version", "latest"), ("current_version", mi.package.version)])
  else
    e.2.map (fun mi => FixAction.mk FixType.MANUAL e.1 mi.package.name
      [("reason", "Complex conflict requires manual intervention")])

/-- Concatenation of `entryActionsSpec` over a conflict list. -/
def entriesActionsSpec (report : DetailedConflictReport) :
    List (String × List ModuleInfo) → List FixAction
  | [] => []
  | e :: rest => entryActionsSpec report e ++ entriesActionsSpec report rest

/-! ### Concrete inputs used by counterexamples and witnesses -/

/-- Example package `alpha==1.0.0`. -/
def pkgA : PackageInfo := ⟨"alpha", "1.0.0"⟩

/-- Example package `beta==2.0.0`. -/
def pkgB : PackageInfo := ⟨"beta", "2.0.0"⟩

/-- Record: module `utils` owned by `alpha`. -/
def recA : ModuleInfo := ⟨"utils", "/site-packages/alpha/utils.py", pkgA⟩

/-- Record: module `utils` owned by `beta`. -/
def recB : ModuleInfo := ⟨"utils", "/site-packages/beta/utils.py", pkgB⟩

/-- Second record of module `utils` owned by `beta` (a package listing
the same module name twice, which the detector's contract allows). -/
def recB2 : ModuleInfo := ⟨"utils", "/site-packages/beta/sub/utils.py", pkgB⟩

/-- Conflict report with the single conflicting module `utils`, owned by
`alpha` and `beta`. -/
def reportU : ConflictReport := ⟨[("utils", [recA, recB])]⟩

/-- Scanner output with a direct `import utils` site in one file and a
dotted `from utils.helpers import f` site in a later file. -/
def filesHighThenMedium : List (String × List (String × List String)) :=
  [("app/main.py", [("utils", ["import utils"])]),
   ("app/other.py", [("utils", ["from utils.helpers import f"])])]

/-- Scanner output with a single dotted plain-import site
`import utils.helpers`. -/
def filesDotted : List (String × List (String × List String)) :=
  [("app/main.py", [("utils", ["import utils.helpers"])])]

/-- Package `root-project==1.0.0` of the repository's own
`simple_graph` test fixture. -/
def pkgRoot : PackageInfo := ⟨"root-project", "1.0.0"⟩

/-- Package `package1==1.0.0` of the `simple_graph` fixture. -/
def pkg1 : PackageInfo := ⟨"package1", "1.0.0"⟩

/-- Package `package2==2.0.0` of the `simple_graph` fixture. -/
def pkg2 : PackageInfo := ⟨"package2", "2.0.0"⟩

/-- Package `package3==3.0.0` of the `simple_graph` fixture. -/
def pkg3 : PackageInfo := ⟨"package3", "3.0.0"⟩

/-- The `simple_graph` fixture of `tests/test_dependency_graph.py`:
root-project → package1, root-project → package2, package1 → package3.
The test calls `get_all_dependencies("root-project")` on it and expects
a 3-element set. -/
def simpleGraph : DependencyGraph :=
  (((DependencyGraph.mk []).add_dependency pkgRoot pkg1).add_dependency
    pkgRoot pkg2).add_dependency pkg1 pkg3

/-- Detailed report for the fix planner: default (MEDIUM) severity, no
usage data, and package `beta` owning two records of `utils`. -/
def reportShimDup : DetailedConflictReport :=
  ⟨[("utils", [recA, recB, recB2])], [], []⟩

/-- Detailed report for the fix planner: default severity with one usage
site whose text mentions `beta`, making `beta` the frequency keeper. -/
def reportShimFreq : DetailedConflictReport :=
  ⟨[("utils", [recA, recB])], [],
   [("utils", ["app/main.py: from beta import utils"])]⟩

/-- Detailed report for the fix planner: severity HIGH with package
`beta` owning two records of `utils`. -/
def reportVersionDup : DetailedConflictReport :=
  ⟨[("utils", [recA, recB, recB2])], [("utils", "HIGH")], []⟩

/-! ### Fix outcome aggregation: claims C7 and C8 -/

theorem applied_fixes_foldl (outcome : FixAction → AppliedFix) (l : List FixAction)
    (r0 : FixResult) :
    (l.foldl (fun r a => r.add_result (outcome a)) r0).applied_fixes
      = r0.applied_fixes ++ l.map outcome := by
  induction l generalizing r0 with
  | nil => simp
  | cons a t ih =>
      simp only [List.foldl_cons, List.map_cons]
      rw [ih]
      simp [FixResult.add_result]

/-- C7: in dry-run mode `apply_fixes` yields exactly one outcome per
action of the plan, in plan order, every outcome succeeded with the
dry-run message, and the result does not depend on (hence never invokes)
the external mutation handlers. -/
theorem apply_fixes_dry_run_spec (apply_shim apply_version : FixAction → AppliedFix)
    (plan : FixPlan) :
    (apply_fixes apply_shim apply_version plan true).applied_fixes
      = plan.actions.map (fun a => AppliedFix.mk a true "Dry run - not actually applied") := by
  unfold apply_fixes
  rw [applied_fixes_foldl]
  rfl

/-- C8: in a real run `apply_fixes` yields exactly one outcome per action
in plan order and never short-circuits; an action whose kind has no
automated handler (ISOLATION or MANUAL) yields a failed outcome with the
explanatory not-implemented message, and the remaining actions are still
processed whatever any handler returns. -/
theorem apply_fixes_real_run_spec (apply_shim apply_version : FixAction → AppliedFix)
    (plan : FixPlan) :
    (apply_fixes apply_shim apply_version plan false).applied_fixes
      = plan.actions.map (fun a =>
          if a.fix_type = FixType.RENAME_SHIM then apply_shim a
          else if a.fix_type = FixType.VERSION_CONSTRAINT then apply_version a
          else AppliedFix.mk a false
            ("Fix type " ++ fixTypeStr a.fix_type
              ++ " not implemented for automatic application")) := by
  unfold apply_fixes
  rw [applied_fixes_foldl]
  rfl

/-! ### Dependency graph algebra: claim C9 -/

theorem hasNode_add_node_self (g : DependencyGraph) (p : PackageInfo) :
    (g.add_node p).hasNode p.name = true := by
  unfold DependencyGraph.add_node
  by_cases h : g.hasNode p.name
  · simp [h]
  · simp only [h, if_false]
    simp [DependencyGraph.hasNode]

theorem hasNode_add_node_mono {g : DependencyGraph} {k : String} (p : PackageInfo)
    (h : g.hasNode k = true) : (g.add_node p).hasNode k = true := by
  unfold DependencyGraph.add_node
  by_cases h2 : g.hasNode p.name
  · simpa [h2]
  · simp only [h2, if_false]
    unfold DependencyGraph.hasNode at h ⊢
    simp [List.any_append, h]

theorem add_node_of_hasNode {g : DependencyGraph} {p : PackageInfo}
    (h : g.hasNode p.name = true) : g.add_node p = g := by
  simp [DependencyGraph.add_node, h]

theorem DependencyNode.add_dependency_idem (n : DependencyNode) (c : String) :
    (n.add_dependency c).add_dependency c = n.add_dependency c := by
  unfold DependencyNode.add_dependency
  by_cases h : c ∈ n.dependencies
  · simp [h]
  · simp [h]

theorem edgeUpd_fst (pn cn : String) (e : String × DependencyNode) :
    (edgeUpd pn cn e).1 = e.1 := by
  unfold edgeUpd
  by_cases h : e.1 = pn <;> simp [h]

theorem edgeUpd_idem (pn cn : String) (e : String × DependencyNode) :
    edgeUpd pn cn (edgeUpd pn cn e) = edgeUpd pn cn e := by
  unfold edgeUpd
  by_cases h : e.1 = pn
  · simp [h, DependencyNode.add_dependency_idem]
  · simp [h]

theorem hasNode_mk_map_edgeUpd (l : List (String × DependencyNode)) (pn cn k : String) :
    (DependencyGraph.mk (l.map (edgeUpd pn cn))).hasNode k
      = (DependencyGraph.mk l).hasNode k := by
  induction l with
  | nil => rfl
  | cons e t ih =>
      unfold DependencyGraph.hasNode at *
      simp only [List.map_cons, List.any_cons, edgeUpd_fst]
      rw [show (List.any (List.map (edgeUpd pn cn) t) fun e => decide (e.1 = k))
            = (List.any t fun e => decide (e.1 = k)) from ih]

theorem hasNode_add_dependency (g : DependencyGraph) (parent child : PackageInfo)
    (k : String) :
    (g.add_dependency parent child).hasNode k
      = ((g.add_node parent).add_node child).hasNode k := by
  unfold DependencyGraph.add_dependency
  exact hasNode_mk_map_edgeUpd _ _ _ _

/-- C9: `add_node` is idempotent on package name (adding a second
package with the same name, whatever its version, leaves the graph — and
hence the first-inserted version — unchanged), and `add_dependency` on
already-present endpoints adds no node and no duplicate edge (repeating
it is the identity). -/
theorem add_node_idempotent_add_dependency_dedup
    (g g' : DependencyGraph) (p q parent child : PackageInfo) (h : p.name = q.name) :
    (g.add_node p).add_node q = g.add_node p
      ∧ (g'.add_dependency parent child).add_dependency parent child
          = g'.add_dependency parent child := by
  constructor
  · apply add_node_of_hasNode
    rw [← h]
    exact hasNode_add_node_self g p
  · have hp : (g'.add_dependency parent child).hasNode parent.name = true := by
      rw [hasNode_add_dependency]
      exact hasNode_add_node_mono child (hasNode_add_node_self g' parent)
    have hc : (g'.add_dependency parent child).hasNode child.name = true := by
      rw [hasNode_add_dependency]
      exact hasNode_add_node_self (g'.add_node parent) child
    show DependencyGraph.mk
        ((((g'.add_dependency parent child).add_node parent).add_node child).nodes.map
          (edgeUpd parent.name child.name))
      = g'.add_dependency parent child
    rw [add_node_of_hasNode hp, add_node_of_hasNode hc]
    show DependencyGraph.mk
        ((((g'.add_node parent).add_node child).nodes.map
            (edgeUpd parent.name child.name)).map (edgeUpd parent.name child.name))
      = g'.add_dependency parent child
    unfold DependencyGraph.add_dependency
    congr 1
    rw [List.map_map]
    apply List.map_congr_left
    intro e _
    exact edgeUpd_idem parent.name child.name e

/-- Witness for C9 at the empty graph with two versions of `alpha` and
the edge alpha→beta. -/
theorem add_node_idempotent_add_dependency_dedup_witness :
    ((DependencyGraph.mk []).add_node pkgA).add_node (PackageInfo.mk "alpha" "9.9.9")
        = (DependencyGraph.mk []).add_node pkgA
      ∧ ((DependencyGraph.mk []).add_dependency pkgA pkgB).add_dependency pkgA pkgB
          = (DependencyGraph.mk []).add_dependency pkgA pkgB :=
  add_node_idempotent_add_dependency_dedup (DependencyGraph.mk []) (DependencyGraph.mk [])
    pkgA (PackageInfo.mk "alpha" "9.9.9") pkgA pkgB rfl

/-! ### Association-list lemmas -/

theorem alGet_nil {α : Type} (k : String) : alGet ([] : List (String × α)) k = none := rfl

theorem alGet_cons {α : Type} (e : String × α) (rest : List (String × α)) (k : String) :
    alGet (e :: rest) k = if e.1 = k then some e.2 else alGet rest k := by
  unfold alGet
  rw [List.find?_cons]
  by_cases h : e.1 = k <;> simp [h]

theorem alGet_eq_none_iff {α : Type} (m : List (String × α)) (k : String) :
    alGet m k = none ↔ k ∉ m.map Prod.fst := by
  constructor
  · intro h hk
    rcases List.mem_map.mp hk with ⟨e, he, hfst⟩
    unfold alGet at h
    rw [Option.map_eq_none', List.find?_eq_none] at h
    exact h e he (by simp [hfst])
  · intro h
    unfold alGet
    rw [Option.map_eq_none', List.find?_eq_none]
    intro e he
    simp only [decide_eq_true_eq]
    intro hfst
    exact h (List.mem_map.mpr ⟨e, he, hfst⟩)

theorem alGet_append_left_none {α : Type} {m1 : List (String × α)} {k : String}
    (m2 : List (String × α)) (h : alGet m1 k = none) :
    alGet (m1 ++ m2) k = alGet m2 k := by
  induction m1 with
  | nil => rfl
  | cons e t ih =>
      rw [alGet_cons] at h
      by_cases he : e.1 = k
      · simp [he] at h
      · rw [List.cons_append, alGet_cons]
        simp only [he, if_false]
        exact ih (by simpa [he] using h)

theorem alGet_alSet {α : Type} (m : List (String × α)) (k : String) (v : α) (q : String) :
    alGet (alSet m k v) q = if q = k then some v else alGet m q := by
  induction m with
  | nil =>
      unfold alSet
      rw [alGet_cons]
      by_cases h : q = k
      · simp [h]
      · have h2 : ¬(k = q) := fun hh => h hh.symm
        simp [h, h2, alGet_nil]
  | cons e t ih =>
      unfold alSet
      by_cases he : e.1 = k
      · simp only [he, if_true]
        rw [alGet_cons, alGet_cons]
        by_cases hq : q = k
        · simp [hq]
        · have hkq : ¬(k = q) := fun hh => hq hh.symm
          have heq : ¬(e.1 = q) := fun hh => hq (he.symm.trans hh).symm
          simp [hq, hkq, heq]
      · simp only [he, if_false]
        rw [alGet_cons, alGet_cons, ih]
        by_cases he2 : e.1 = q
        · have hq : ¬(q = k) := fun hh => he (he2.trans hh)
          simp [he2, hq]
        · simp [he2]

theorem alGet_dictAppend {α : Type} (m : List (String × List α)) (k : String) (x : α)
    (q : String) :
    alGet (dictAppend m k x) q
      = if q = k then some ((alGet m k).getD [] ++ [x]) else alGet m q := by
  induction m with
  | nil =>
      unfold dictAppend
      rw [alGet_cons]
      by_cases h : q = k
      · simp [h, alGet_nil]
      · have h2 : ¬(k = q) := fun hh => h hh.symm
        simp [h, h2, alGet_nil]
  | cons e t ih =>
      unfold dictAppend
      by_cases he : e.1 = k
      · simp only [he, if_true]
        simp only [alGet_cons]
        by_cases hq : q = k
        · have heq : e.1 = q := he.trans hq.symm
          simp [hq, heq, he]
        · have hkq : ¬(k = q) := fun hh => hq hh.symm
          have heq : ¬(e.1 = q) := fun hh => hq (he.symm.trans hh).symm
          simp [hq, hkq, heq, he]
      · simp only [he, if_false]
        simp only [alGet_cons, ih]
        by_cases he2 : e.1 = q
        · have hq : ¬(q = k) := fun hh => he (he2.trans hh)
          simp [he2, hq]
        · by_cases hq : q = k <;> simp [he2, hq, he]

theorem keys_dictAppend {α : Type} (m : List (String × List α)) (k : String) (x : α) :
    (dictAppend m k x).map Prod.fst
      = if k ∈ m.map Prod.fst then m.map Prod.fst else m.map Prod.fst ++ [k] := by
  induction m with
  | nil => simp [dictAppend]
  | cons e t ih =>
      unfold dictAppend
      by_cases he : e.1 = k
      · simp [he]
      · have : ¬(k = e.1) := fun hh => he hh.symm
        simp only [List.map_cons, List.mem_cons, this, false_or, he, if_false]
        rw [ih]
        by_cases hk : k ∈ t.map Prod.fst <;> simp [hk]

/-! ### Group-by characterization of the detector's module map -/

theorem group_get_some (recs : List ModuleInfo) (m : List (String × List ModuleInfo))
    (k : String) (v : List ModuleInfo) (h : alGet m k = some v) :
    alGet (recs.foldl (fun m mi => dictAppend m mi.name mi) m) k
      = some (v ++ recs.filter (fun mi => mi.name = k)) := by
  induction recs generalizing m v with
  | nil => simpa using h
  | cons mi t ih =>
      simp only [List.foldl_cons]
      by_cases hn : mi.name = k
      · have h2 : alGet (dictAppend m mi.name mi) k = some (v ++ [mi]) := by
          rw [alGet_dictAppend]
          simp [hn, h]
        rw [ih _ _ h2]
        simp [List.filter_cons, hn]
      · have hkn : ¬(k = mi.name) := fun hh => hn hh.symm
        have h2 : alGet (dictAppend m mi.name mi) k = some v := by
          rw [alGet_dictAppend]
          simp [hkn, h]
        rw [ih _ _ h2]
        simp [List.filter_cons, hn]

theorem group_get_none (recs : List ModuleInfo) (m : List (String × List ModuleInfo))
    (k : String) (h : alGet m k = none) :
    alGet (recs.foldl (fun m mi => dictAppend m mi.name mi) m) k
      = if (recs.filter (fun mi => mi.name = k)).isEmpty then none
        else some (recs.filter (fun mi => mi.name = k)) := by
  induction recs generalizing m with
  | nil => simpa using h
  | cons mi t ih =>
      simp only [List.foldl_cons]
      by_cases hn : mi.name = k
      · have h2 : alGet (dictAppend m mi.name mi) k = some [mi] := by
          rw [alGet_dictAppend]
          simp [hn, h]
        rw [group_get_some t _ _ _ h2]
        simp [List.filter_cons, hn]
      · have hkn : ¬(k = mi.name) := fun hh => hn hh.symm
        have h2 : alGet (dictAppend m mi.name mi) k = none := by
          rw [alGet_dictAppend]
          simp [hkn, h]
        rw [ih _ h2]
        simp [List.filter_cons, hn]

theorem group_keys_nodup (recs : List ModuleInfo) (m : List (String × List ModuleInfo))
    (h : (m.map Prod.fst).Nodup) :
    ((recs.foldl (fun m mi => dictAppend m mi.name mi) m).map Prod.fst).Nodup := by
  induction recs generalizing m with
  | nil => exact h
  | cons mi t ih =>
      simp only [List.foldl_cons]
      apply ih
      rw [keys_dictAppend]
      by_cases hk : mi.name ∈ m.map Prod.fst
      · simpa [hk]
      · simp only [hk, if_false]
        rw [List.nodup_append]
        refine ⟨h, List.nodup_singleton _, ?_⟩
        intro a ha hb
        have : a = mi.name := by simpa using hb
        exact hk (this ▸ ha)

theorem module_map_eq (modules_by_package : List (String × List ModuleInfo))
    (m0 : List (String × List ModuleInfo)) :
    modules_by_package.foldl
        (fun m e => e.2.foldl (fun m mi => dictAppend m mi.name mi) m) m0
      = (allRecords modules_by_package).foldl (fun m mi => dictAppend m mi.name mi) m0 := by
  induction modules_by_package generalizing m0 with
  | nil => rfl
  | cons e t ih =>
      simp only [List.foldl_cons, allRecords, List.foldl_append]
      exact ih _

/-! ### Reconstruction of the conflict report from the module map -/

theorem dictAppend_fresh {α : Type} (m : List (String × List α)) (k : String) (x : α)
    (h : alGet m k = none) : dictAppend m k x = m ++ [(k, [x])] := by
  induction m with
  | nil => rfl
  | cons e t ih =>
      rw [alGet_cons] at h
      by_cases he : e.1 = k
      · simp [he] at h
      · unfold dictAppend
        simp only [he, if_false, List.cons_append]
        rw [ih (by simpa [he] using h)]

theorem dictAppend_append_last {α : Type} (c : List (String × List α)) (k : String)
    (v : List α) (x : α) (h : alGet c k = none) :
    dictAppend (c ++ [(k, v)]) k x = c ++ [(k, v ++ [x])] := by
  induction c with
  | nil => simp [dictAppend]
  | cons e t ih =>
      rw [alGet_cons] at h
      by_cases he : e.1 = k
      · simp [he] at h
      · simp only [List.cons_append]
        unfold dictAppend
        simp only [he, if_false]
        rw [ih (by simpa [he] using h)]

theorem fold_dictAppend_last {α : Type} (rest : List α) (c : List (String × List α))
    (k : String) (v : List α) (h : alGet c k = none) :
    rest.foldl (fun c x => dictAppend c k x) (c ++ [(k, v)]) = c ++ [(k, v ++ rest)] := by
  induction rest generalizing v with
  | nil => simp
  | cons b t ih =>
      simp only [List.foldl_cons]
      rw [dictAppend_append_last c k v b h, ih (v ++ [b])]
      simp

theorem fold_dictAppend_fresh {α : Type} (xs : List α) (c : List (String × List α))
    (k : String) (h : alGet c k = none) (hne : xs ≠ []) :
    xs.foldl (fun c x => dictAppend c k x) c = c ++ [(k, xs)] := by
  cases xs with
  | nil => exact absurd rfl hne
  | cons a t =>
      simp only [List.foldl_cons]
      rw [dictAppend_fresh c k a h, fold_dictAppend_last t c k [a] h]
      rfl

theorem fold_add_conflict_conflicts (mods : List ModuleInfo) (r0 : ConflictReport)
    (k : String) :
    (mods.foldl (fun r mi => r.add_conflict k mi) r0).conflicts
      = mods.foldl (fun c mi => dictAppend c k mi) r0.conflicts := by
  induction mods generalizing r0 with
  | nil => rfl
  | cons mi t ih => simp only [List.foldl_cons]; exact ih _

theorem detect_fold_conflicts (l : List (String × List ModuleInfo)) (r0 : ConflictReport)
    (hnd : (l.map Prod.fst).Nodup)
    (hfresh : ∀ e ∈ l, alGet r0.conflicts e.1 = none) :
    (l.foldl (fun r e =>
        if 1 < ((e.2.map (fun mi => mi.package.name)).dedup).length then
          e.2.foldl (fun r mi => r.add_conflict e.1 mi) r
        else r) r0).conflicts
      = r0.conflicts
          ++ l.filter (fun e => 1 < ((e.2.map (fun mi => mi.package.name)).dedup).length) := by
  induction l generalizing r0 with
  | nil => simp
  | cons e t ih =>
      simp only [List.foldl_cons, List.filter_cons]
      have hndt : (t.map Prod.fst).Nodup := (List.nodup_cons.mp (by simpa using hnd)).2
      have hhead : e.1 ∉ t.map Prod.fst := (List.nodup_cons.mp (by simpa using hnd)).1
      by_cases hflag : 1 < ((e.2.map (fun mi => mi.package.name)).dedup).length
      · have hne : e.2 ≠ [] := by
          intro hnil
          rw [hnil] at hflag
          simp at hflag
        have h1 : (e.2.foldl (fun r mi => r.add_conflict e.1 mi) r0).conflicts
            = r0.conflicts ++ [(e.1, e.2)] := by
          rw [fold_add_conflict_conflicts]
          exact fold_dictAppend_fresh e.2 r0.conflicts e.1 (hfresh e (by simp)) hne
        have hfresh2 : ∀ e' ∈ t,
            alGet (e.2.foldl (fun r mi => r.add_conflict e.1 mi) r0).conflicts e'.1 = none := by
          intro e' he'
          rw [h1, alGet_append_left_none _ (hfresh e' (by simp [he'])), alGet_cons]
          have : ¬(e.1 = e'.1) := by
            intro hh
            exact hhead (hh ▸ List.mem_map_of_mem Prod.fst he')
          simp [this, alGet_nil]
        rw [if_pos hflag, ih _ hndt hfresh2, h1]
        simp [hflag]
      · rw [if_neg hflag, ih _ hndt (fun e' he' => hfresh e' (by simp [he']))]
        simp [hflag]

theorem detect_collisions_eq (modules_by_package : List (String × List ModuleInfo)) :
    (detect_collisions modules_by_package).conflicts
      = (moduleMapOf modules_by_package).filter
          (fun e => 1 < ((e.2.map (fun mi => mi.package.name)).dedup).length) := by
  unfold detect_collisions
  rw [module_map_eq]
  have hnd : ((moduleMapOf modules_by_package).map Prod.fst).Nodup :=
    group_keys_nodup _ [] (by simp)
  have := detect_fold_conflicts (moduleMapOf modules_by_package) ⟨[]⟩ hnd
    (fun e _ => alGet_nil e.1)
  simpa [moduleMapOf] using this

theorem alGet_filter_none {α : Type} (m : List (String × α)) (p : (String × α) → Bool)
    (k : String) (h : alGet m k = none) : alGet (m.filter p) k = none := by
  rw [alGet_eq_none_iff] at h ⊢
  intro hmem
  apply h
  rcases List.mem_map.mp hmem with ⟨x, hx, hfst⟩
  exact List.mem_map.mpr ⟨x, List.mem_of_mem_filter hx, hfst⟩

theorem alGet_filter_some {α : Type} (m : List (String × α)) (p : (String × α) → Bool)
    (k : String) (v : α) (hnd : (m.map Prod.fst).Nodup) (h : alGet m k = some v) :
    alGet (m.filter p) k = if p (k, v) then some v else none := by
  induction m with
  | nil => simp [alGet_nil] at h
  | cons e t ih =>
      have hndt : (t.map Prod.fst).Nodup := (List.nodup_cons.mp (by simpa using hnd)).2
      have hhead : e.1 ∉ t.map Prod.fst := (List.nodup_cons.mp (by simpa using hnd)).1
      rw [alGet_cons] at h
      rw [List.filter_cons]
      by_cases he : e.1 = k
      · rw [if_pos he] at h
        have hv : e.2 = v := by injection h
        have hkv : ((k, v) : String × α) = e := by rw [← he, ← hv]
        have hnone : alGet (t.filter p) k = none := by
          apply alGet_filter_none
          rw [alGet_eq_none_iff]
          intro hmem
          exact hhead (he ▸ hmem)
        by_cases hp : p e
        · rw [if_pos hp, alGet_cons, if_pos he, hkv, if_pos hp, hv]
        · rw [if_neg hp, hnone, hkv, if_neg hp]
      · rw [if_neg he] at h
        by_cases hp : p e
        · rw [if_pos hp, alGet_cons, if_neg he]
          exact ih hndt h
        · rw [if_neg hp]
          exact ih hndt h

/-- C3: a module name is flagged by `detect_collisions` if and only if
its records span at least two distinct owner package names; when flagged,
the report holds exactly every record of that name, in aggregation
order (package iteration order, then within-package item order); names
whose records share one owner are absent, even when that owner repeats
the module. -/
theorem detect_collisions_iff_two_owners
    (modules_by_package : List (String × List ModuleInfo)) (name : String) :
    alGet (detect_collisions modules_by_package).conflicts name
      = if 1 < ((((allRecords modules_by_package).filter (fun mi => mi.name = name)).map
            (fun mi => mi.package.name)).dedup).length
        then some ((allRecords modules_by_package).filter (fun mi => mi.name = name))
        else none := by
  rw [detect_collisions_eq]
  have hnd : ((moduleMapOf modules_by_package).map Prod.fst).Nodup :=
    group_keys_nodup _ [] (by simp)
  have hget : alGet (moduleMapOf modules_by_package) name
      = if ((allRecords modules_by_package).filter (fun mi => mi.name = name)).isEmpty
        then none
        else some ((allRecords modules_by_package).filter (fun mi => mi.name = name)) :=
    group_get_none _ [] name rfl
  by_cases hemp : ((allRecords modules_by_package).filter (fun mi => mi.name = name)).isEmpty
  · rw [if_pos hemp] at hget
    rw [alGet_filter_none _ _ _ hget]
    have hn : (allRecords modules_by_package).filter (fun mi => mi.name = name) = [] :=
      List.isEmpty_iff.mp hemp
    simp [hn]
  · rw [if_neg hemp] at hget
    rw [alGet_filter_some _ _ _ _ hnd hget]
    by_cases hflag : 1 < ((((allRecords modules_by_package).filter
        (fun mi => mi.name = name)).map (fun mi => mi.package.name)).dedup).length
    · simp [hflag]
    · simp [hflag]

/-- C10: structural invariants of every report built by
`detect_collisions`: each entry holds at least two records spanning at
least two distinct owners, `has_conflicts` is true exactly when the
conflicts map is nonempty, and `get_conflict_count` is the number of
entries of the conflicts map. -/
theorem detect_collisions_report_invariants
    (modules_by_package : List (String × List ModuleInfo)) :
    ((detect_collisions modules_by_package).conflicts.all (fun e =>
        decide (1 < e.2.length)
          && decide (1 < ((e.2.map (fun mi => mi.package.name)).dedup).length)) = true)
    ∧ (detect_collisions modules_by_package).has_conflicts
        = !(detect_collisions modules_by_package).conflicts.isEmpty
    ∧ (detect_collisions modules_by_package).get_conflict_count
        = (detect_collisions modules_by_package).conflicts.length := by
  have hall : ∀ e ∈ (detect_collisions modules_by_package).conflicts,
      1 < e.2.length ∧ 1 < ((e.2.map (fun mi => mi.package.name)).dedup).length := by
    intro e he
    rw [detect_collisions_eq] at he
    have hflag := List.of_mem_filter he
    simp only [decide_eq_true_eq] at hflag
    refine ⟨?_, hflag⟩
    calc 1 < ((e.2.map (fun mi => mi.package.name)).dedup).length := hflag
      _ ≤ (e.2.map (fun mi => mi.package.name)).length :=
          (List.dedup_sublist _).length_le
      _ = e.2.length := List.length_map _ _
  refine ⟨?_, ?_, ?_⟩
  · rw [List.all_eq_true]
    intro e he
    have := hall e he
    simp [this.1, this.2]
  · unfold ConflictReport.has_conflicts
    cases hc : (detect_collisions modules_by_package).conflicts with
    | nil => rfl
    | cons e t =>
        have := (hall e (by rw [hc]; simp)).1
        simp [this]
  · unfold ConflictReport.get_conflict_count
    rw [List.filter_eq_self.mpr (fun e he => by simp [(hall e he).1])]

/-! ### Severity bookkeeping of `analyze_project_imports` (claim C1) -/

theorem option_or_assoc {α : Type} (x y z : Option α) : (x.or y).or z = x.or (y.or z) := by
  cases x <;> rfl

theorem option_or_absorb {α : Type} (x y : Option α) : x.or (x.or y) = x.or y := by
  cases x <;> rfl

theorem option_map_or {α β : Type} (g : α → β) (x y : Option α) :
    (x.or y).map g = (x.map g).or (y.map g) := by
  cases x <;> rfl

theorem processSite_severities (r : DetailedConflictReport)
    (module_name file_path import_stmt : String) :
    (processSite r module_name file_path import_stmt).severities
      = alSet r.severities module_name (classify module_name import_stmt) := rfl

theorem sev_after_stmts (stmts : List String) (r : DetailedConflictReport)
    (m f q : String) :
    alGet ((stmts.foldl (fun r stmt => processSite r m f stmt) r).severities) q
      = if q = m then ((stmts.getLast?).map (classify m)).or (alGet r.severities q)
        else alGet r.severities q := by
  induction stmts generalizing r with
  | nil =>
      by_cases hq : q = m
      · simp [hq]
      · simp [hq]
  | cons s t ih =>
      simp only [List.foldl_cons]
      rw [ih]
      by_cases hq : q = m
      · subst hq
        rw [if_pos rfl, if_pos rfl, processSite_severities, alGet_alSet, if_pos rfl]
        cases t with
        | nil => simp
        | cons s2 t2 =>
            rw [List.getLast?_cons_cons]
            cases hl : (s2 :: t2).getLast? with
            | none => exact absurd (by simpa using hl) (List.cons_ne_nil s2 t2)
            | some x => simp [hl]
      · rw [if_neg hq, if_neg hq, processSite_severities, alGet_alSet, if_neg hq]

theorem processFileModule_eq (r : DetailedConflictReport) (m f : String)
    (fi : List (String × List String)) :
    processFileModule r m f fi
      = ((alGet fi m).getD []).foldl (fun r stmt => processSite r m f stmt) r := by
  unfold processFileModule
  cases h : alGet fi m with
  | none => rfl
  | some stmts => rfl

theorem sev_after_file (mods : List String) (r : DetailedConflictReport)
    (f : String) (fi : List (String × List String)) (q : String) :
    alGet ((mods.foldl (fun r m => processFileModule r m f fi) r).severities) q
      = if q ∈ mods
        then ((((alGet fi q).getD []).getLast?).map (classify q)).or (alGet r.severities q)
        else alGet r.severities q := by
  induction mods generalizing r with
  | nil => simp
  | cons m t ih =>
      simp only [List.foldl_cons]
      rw [ih]
      have hbase : alGet ((processFileModule r m f fi).severities) q
          = if q = m
            then ((((alGet fi q).getD []).getLast?).map (classify q)).or (alGet r.severities q)
            else alGet r.severities q := by
        rw [processFileModule_eq, sev_after_stmts]
        by_cases hq : q = m
        · subst hq
          rw [if_pos rfl]
        · rw [if_neg hq]
          rw [if_neg hq]
      by_cases hqt : q ∈ t
      · rw [if_pos hqt, hbase]
        by_cases hqm : q = m
        · rw [if_pos hqm, if_pos (List.mem_cons_of_mem m hqt)]
          exact option_or_absorb _ _
        · rw [if_neg hqm, if_pos (List.mem_cons_of_mem m hqt)]
      · rw [if_neg hqt, hbase]
        by_cases hqm : q = m
        · rw [if_pos hqm, if_pos (show q ∈ m :: t by simp [hqm])]
        · rw [if_neg hqm, if_neg (by simp [hqm, hqt])]

theorem sev_after_files (files : List (String × List (String × List String)))
    (mods : List String) (r : DetailedConflictReport) (q : String) :
    alGet ((files.foldl
        (fun r f => mods.foldl (fun r m => processFileModule r m f.1 f.2) r) r).severities) q
      = if q ∈ mods
        then ((sitesFor files q).getLast?.map (classify q)).or (alGet r.severities q)
        else alGet r.severities q := by
  induction files generalizing r with
  | nil =>
      by_cases hq : q ∈ mods
      · simp [hq, sitesFor]
      · simp [hq]
  | cons f rest ih =>
      simp only [List.foldl_cons]
      rw [ih]
      by_cases hq : q ∈ mods
      · simp only [hq, if_true]
        rw [sev_after_file]
        simp only [hq, if_true]
        show ((sitesFor rest q).getLast?.map (classify q)).or
            ((((alGet f.2 q).getD []).getLast?.map (classify q)).or (alGet r.severities q))
          = ((sitesFor (f :: rest) q).getLast?.map (classify q)).or (alGet r.severities q)
        have hsites : sitesFor (f :: rest) q = (alGet f.2 q).getD [] ++ sitesFor rest q := rfl
        rw [hsites, List.getLast?_append, option_map_or, option_or_assoc]
      · simp only [hq, if_false]
        rw [sev_after_file]
        simp [hq]

/-- C1 (amended): the severity stored by `analyze_project_imports` for a
conflicting module is the classification of the module's
**last-processed** usage site (files in discovery order, statements
within a file in the scanner's order), because `set_severity` overwrites
rather than maximizes; a conflicting module with no usage sites gets no
stored severity (readers of the report then apply the MEDIUM default),
and non-conflicting names never get one. -/
theorem severity_last_site_wins (files : List (String × List (String × List String)))
    (report : ConflictReport) (q : String) :
    alGet (analyze_project_imports files report).severities q
      = if q ∈ report.conflicts.map Prod.fst
        then (sitesFor files q).getLast?.map (classify q)
        else none := by
  unfold analyze_project_imports
  rw [sev_after_files]
  by_cases hq : q ∈ (report.conflicts.map Prod.fst).dedup
  · have hq2 : q ∈ report.conflicts.map Prod.fst := List.mem_dedup.mp hq
    simp only [hq, if_true, hq2, if_true]
    show ((sitesFor files q).getLast?.map (classify q)).or (alGet [] q) = _
    rw [alGet_nil, Option.or_none]
  · have hq2 : q ∉ report.conflicts.map Prod.fst := fun h => hq (List.mem_dedup.mpr h)
    simp only [hq, if_false, hq2, if_false]
    exact alGet_nil q

/-- C1 counterexample: with a direct `import utils` site processed before
a dotted `from utils.helpers import f` site, the stored severity is
MEDIUM — the classification of the last site — although the most severe
classification across the sites is HIGH (the first site is of the exact
form `import utils`), so severity is not the maximum over usage sites. -/
theorem severity_not_max_counterexample :
    alGet (analyze_project_imports filesHighThenMedium reportU).severities "utils"
        = some "MEDIUM"
      ∧ classify "utils" "import utils" = "HIGH"
      ∧ "app/main.py: import utils"
          ∈ ((alGet (analyze_project_imports filesHighThenMedium reportU).import_paths
              "utils").getD []) := by
  refine ⟨by decide, by decide, by decide⟩

/-! ### Classification of usage sites (claim C4) -/

theorem pyStartsWith_iff (s pre : String) : pyStartsWith s pre = true ↔ pre.data <+: s.data := by
  unfold pyStartsWith
  exact List.isPrefixOf_iff_prefix

theorem pyStartsWith_refl (s : String) : pyStartsWith s s = true :=
  (pyStartsWith_iff s s).mpr (List.prefix_refl _)

theorem pyStartsWith_append_self (p t : String) : pyStartsWith (p ++ t) p = true := by
  rw [pyStartsWith_iff, String.data_append]
  exact List.prefix_append _ _

theorem pyStartsWith_cancel (c s p : String) :
    pyStartsWith (c ++ s) (c ++ p) = pyStartsWith s p := by
  unfold pyStartsWith
  rw [String.data_append, String.data_append]
  induction c.data with
  | nil => rfl
  | cons a t ih =>
      simp only [List.cons_append, List.isPrefixOf, beq_self_eq_true, Bool.true_and]
      exact ih

theorem pyStartsWith_false_of_head_ne {s p : String} {a b : Char} {sd pd : List Char}
    (hs : s.data = a :: sd) (hp : p.data = b :: pd) (h : ¬ b = a) :
    pyStartsWith s p = false := by
  unfold pyStartsWith
  rw [hs, hp]
  simp only [List.isPrefixOf]
  rw [show (b == a) = false from beq_eq_false_iff_ne.mpr h]
  exact Bool.false_and _

theorem data_from_append (x : String) :
    ("from " ++ x).data = 'f' :: ("rom ".data ++ x.data) := by
  rw [String.data_append]
  rfl

theorem data_import_append (y : String) :
    ("import " ++ y).data = 'i' :: ("mport ".data ++ y.data) := by
  rw [String.data_append]
  rfl

theorem data_dot_append (z : String) : ("." ++ z).data = '.' :: z.data := by
  rw [String.data_append]
  rfl

theorem pyStartsWith_from_import_false (x y : String) :
    pyStartsWith ("from " ++ x) ("import " ++ y) = false :=
  pyStartsWith_false_of_head_ne (data_from_append x) (data_import_append y) (by decide)

/-- C4 (amended): a usage site is classified HIGH exactly when its text
starts with `import <name>` or with `from <name> import` as a string
prefix.  The bare forms `import name` and `from name import ...` are
HIGH as the specification states, but a dotted plain-import site
`import name.sub` is also HIGH — the prefix test `startswith("import
name")` accepts it — and only the dotted from-import form
`from name.sub import ...` falls to MEDIUM. -/
theorem classify_prefix_forms (name sub rest : String) :
    classify name ("import " ++ name) = "HIGH"
    ∧ classify name ("from " ++ name ++ " import " ++ rest) = "HIGH"
    ∧ classify name ("import " ++ name ++ "." ++ sub) = "HIGH"
    ∧ classify name ("from " ++ name ++ "." ++ sub ++ " import " ++ rest) = "MEDIUM" := by
  refine ⟨?_, ?_, ?_, ?_⟩
  · simp [classify, pyStartsWith_refl]
  · have hsplit : ("from " ++ name ++ " import " ++ rest : String)
        = ("from " ++ name ++ " import") ++ (" " ++ rest) := by
      rw [show (" import " : String) = " import" ++ " " from rfl]
      rw [← String.append_assoc ("from " ++ name) " import" " "]
      rw [String.append_assoc ("from " ++ name ++ " import") " " rest]
    have h2 : pyStartsWith ("from " ++ name ++ " import " ++ rest)
        ("from " ++ name ++ " import") = true := by
      rw [hsplit]
      exact pyStartsWith_append_self _ _
    simp [classify, h2]
  · have hsplit : ("import " ++ name ++ "." ++ sub : String)
        = ("import " ++ name) ++ ("." ++ sub) := by
      simp only [String.append_assoc]
    have h3 : pyStartsWith ("import " ++ name ++ "." ++ sub) ("import " ++ name) = true := by
      rw [hsplit]
      exact pyStartsWith_append_self _ _
    simp [classify, h3]
  · have hstmt : ("from " ++ name ++ "." ++ sub ++ " import " ++ rest : String)
        = "from " ++ (name ++ ("." ++ (sub ++ (" import " ++ rest)))) := by
      simp only [String.append_assoc]
    have hstmt2 : ("from " ++ name ++ "." ++ sub ++ " import " ++ rest : String)
        = ("from " ++ name) ++ ("." ++ (sub ++ (" import " ++ rest))) := by
      simp only [String.append_assoc]
    have h4a : pyStartsWith ("from " ++ name ++ "." ++ sub ++ " import " ++ rest)
        ("import " ++ name) = false := by
      rw [hstmt]
      exact pyStartsWith_from_import_false _ _
    have h4b : pyStartsWith ("from " ++ name ++ "." ++ sub ++ " import " ++ rest)
        ("from " ++ name ++ " import") = false := by
      rw [hstmt2, show ("from " ++ name ++ " import" : String)
          = ("from " ++ name) ++ " import" from rfl, pyStartsWith_cancel]
      exact pyStartsWith_false_of_head_ne (data_dot_append _)
        (show (" import" : String).data = ' ' :: "import".data from rfl) (by decide)
    simp [classify, h4a, h4b]

/-- C4 counterexample: the dotted plain-import site `import
utils.helpers` — a statement that merely mentions `utils` as part of a
dotted sub-path — is classified HIGH by the code (the stored severity of
`utils` after scanning only this site is HIGH), where the claim requires
MEDIUM. -/
theorem dotted_import_high_counterexample :
    alGet (analyze_project_imports filesDotted reportU).severities "utils" = some "HIGH"
      ∧ classify "utils" "import utils.helpers" = "HIGH" :=
  ⟨by decide, by decide⟩

/-! ### Plan structure of `suggest_fixes` (claims C5 and C6) -/

theorem fold_add_action_filter (l : List ModuleInfo) (p0 : FixPlan) (keeper : String)
    (f : ModuleInfo → FixAction) :
    (l.foldl (fun plan mi =>
        if mi.package.name ≠ keeper then plan.add_action (f mi) else plan) p0).actions
      = p0.actions ++ (l.filter (fun mi => mi.package.name ≠ keeper)).map f := by
  induction l generalizing p0 with
  | nil => simp
  | cons mi t ih =>
      simp only [List.foldl_cons, List.filter_cons]
      by_cases hc : mi.package.name ≠ keeper
      · rw [if_pos hc, ih]
        simp [FixPlan.add_action, hc]
      · rw [if_neg hc, ih]
        simp [hc]

theorem fold_add_action_map (l : List ModuleInfo) (p0 : FixPlan)
    (f : ModuleInfo → FixAction) :
    (l.foldl (fun plan mi => plan.add_action (f mi)) p0).actions
      = p0.actions ++ l.map f := by
  induction l generalizing p0 with
  | nil => simp
  | cons mi t ih =>
      simp only [List.foldl_cons, List.map_cons]
      rw [ih]
      simp [FixPlan.add_action]

theorem entry_step_actions (report : DetailedConflictReport)
    (e : String × List ModuleInfo) (p0 : FixPlan) :
    (if e.2.length ≤ 1 then p0
     else if should_use_shim e.1 report then
       e.2.foldl
         (fun plan mi =>
           if mi.package.name ≠ keeperFor report e.1 e.2 then
             plan.add_action (shimAction e.1 mi)
           else plan)
         p0
     else if should_use_version_constraint e.1 report then
       e.2.foldl (fun plan mi => plan.add_action (versionAction e.1 mi)) p0
     else e.2.foldl (fun plan mi => plan.add_action (manualAction e.1 mi)) p0).actions
      = p0.actions ++ entryActions report e := by
  unfold entryActions
  by_cases h1 : e.2.length ≤ 1
  · rw [if_pos h1, if_pos h1]
    simp
  · rw [if_neg h1, if_neg h1]
    by_cases h2 : should_use_shim e.1 report
    · rw [if_pos h2, if_pos h2, fold_add_action_filter]
    · rw [if_neg h2, if_neg h2]
      by_cases h3 : should_use_version_constraint e.1 report
      · rw [if_pos h3, if_pos h3, fold_add_action_map]
      · rw [if_neg h3, if_neg h3, fold_add_action_map]

theorem suggest_fixes_fold (report : DetailedConflictReport)
    (l : List (String × List ModuleInfo)) (p0 : FixPlan) :
    (l.foldl (fun plan e =>
        if e.2.length ≤ 1 then plan
        else if should_use_shim e.1 report then
          e.2.foldl
            (fun plan mi =>
              if mi.package.name ≠ keeperFor report e.1 e.2 then
                plan.add_action (shimAction e.1 mi)
              else plan)
            plan
        else if should_use_version_constraint e.1 report then
          e.2.foldl (fun plan mi => plan.add_action (versionAction e.1 mi)) plan
        else e.2.foldl (fun plan mi => plan.add_action (manualAction e.1 mi)) plan) p0).actions
      = p0.actions ++ entriesActions report l := by
  induction l generalizing p0 with
  | nil => simp [entriesActions]
  | cons e t ih =>
      simp only [List.foldl_cons]
      rw [ih, entry_step_actions, List.append_assoc]
      rfl

theorem suggest_fixes_actions (report : DetailedConflictReport) :
    (suggest_fixes report).actions = entriesActions report report.conflicts := by
  unfold suggest_fixes
  rw [suggest_fixes_fold]
  rfl

theorem entryActions_eq_spec (report : DetailedConflictReport)
    (e : String × List ModuleInfo) :
    entryActions report e = entryActionsSpec report e := by
  unfold entryActions entryActionsSpec
  by_cases h1 : e.2.length ≤ 1
  · simp [h1]
  · by_cases h2 : severityOf report e.1 = "MEDIUM" ∨ severityOf report e.1 = "LOW"
    · have hs : should_use_shim e.1 report = true := by
        unfold should_use_shim
        rcases h2 with h | h <;> simp [h]
      simp [h1, hs, h2]
    · have hs : ¬(should_use_shim e.1 report = true) := by
        unfold should_use_shim
        simp only [Bool.or_eq_true, decide_eq_true_eq]
        exact h2
      by_cases h3 : severityOf report e.1 = "CRITICAL" ∨ severityOf report e.1 = "HIGH"
      · have hv : should_use_version_constraint e.1 report = true := by
          unfold should_use_version_constraint
          rcases h3 with h | h <;> simp [h]
        simp [h1, hs, hv, h2, h3, versionAction]
      · have hv : ¬(should_use_version_constraint e.1 report = true) := by
          unfold should_use_version_constraint
          simp only [Bool.or_eq_true, decide_eq_true_eq]
          exact h3
        simp [h1, hs, hv, h2, h3, manualAction]

theorem entriesActions_eq_spec (report : DetailedConflictReport)
    (l : List (String × List ModuleInfo)) :
    entriesActions report l = entriesActionsSpec report l := by
  induction l with
  | nil => rfl
  | cons e t ih =>
      unfold entriesActions entriesActionsSpec
      rw [ih, entryActions_eq_spec]

/-- C6 (amended): `suggest_fixes` selects the strategy per conflict entry
by severity in fixed priority order — MEDIUM/LOW (including the default
when no severity is stored) gives RENAME_SHIM, otherwise CRITICAL/HIGH
gives VERSION_CONSTRAINT with the sentinel `new_version = "latest"`,
anything else (e.g. INFO) gives MANUAL — and entries whose record list
has length at most 1 contribute no actions.  In the VERSION_CONSTRAINT
and MANUAL branches the engine emits one action **per record** of the
conflict (a package owning several records of the module receives one
action per record), not one per distinct owning package. -/
theorem suggest_fixes_strategy_spec (report : DetailedConflictReport) :
    (suggest_fixes report).actions = entriesActionsSpec report report.conflicts := by
  rw [suggest_fixes_actions, entriesActions_eq_spec]

/-- C6 counterexample: severity HIGH with records owned by `alpha`,
`beta`, `beta` produces three VERSION_CONSTRAINT actions — one per
record, two of them for the single owning package `beta` — although the
entry has only two distinct owning packages, refuting "one action per
owning package". -/
theorem version_actions_per_record_counterexample :
    (suggest_fixes reportVersionDup).actions.map
        (fun a => (a.fix_type, a.package_name, alGet a.details "new_version"))
      = [(FixType.VERSION_CONSTRAINT, "alpha", some "latest"),
         (FixType.VERSION_CONSTRAINT, "beta", some "latest"),
         (FixType.VERSION_CONSTRAINT, "beta", some "latest")]
      ∧ (((alGet reportVersionDup.conflicts "utils").getD []).map
          (fun mi => mi.package.name)).dedup = ["alpha", "beta"] :=
  ⟨by decide, by decide⟩

/-! ### Keeper selection of the RENAME_SHIM strategy (claim C5) -/

theorem lexLe_cons_iff (x y : Char) (xs ys : List Char) :
    lexLe (x :: xs) (y :: ys) = true
      ↔ (x.toNat < y.toNat ∨ (x.toNat = y.toNat ∧ lexLe xs ys = true)) := by
  show (if x.toNat < y.toNat then true
        else if y.toNat < x.toNat then false else lexLe xs ys) = true ↔ _
  by_cases h1 : x.toNat < y.toNat
  · rw [if_pos h1]
    simp [h1]
  · rw [if_neg h1]
    by_cases h2 : y.toNat < x.toNat
    · rw [if_pos h2]
      have hne : ¬(x.toNat = y.toNat) := fun hh => (Nat.lt_irrefl _ (hh ▸ h2))
      simp [h1, hne]
    · rw [if_neg h2]
      have heq : x.toNat = y.toNat :=
        Nat.le_antisymm (Nat.le_of_not_lt h2) (Nat.le_of_not_lt h1)
      simp [h1, heq]

theorem lexLe_total : ∀ (a b : List Char), lexLe a b = true ∨ lexLe b a = true
  | [], _ => Or.inl rfl
  | _ :: _, [] => Or.inr rfl
  | x :: xs, y :: ys => by
      rcases Nat.lt_trichotomy x.toNat y.toNat with h | h | h
      · exact Or.inl ((lexLe_cons_iff x y xs ys).mpr (Or.inl h))
      · rcases lexLe_total xs ys with h2 | h2
        · exact Or.inl ((lexLe_cons_iff x y xs ys).mpr (Or.inr ⟨h, h2⟩))
        · exact Or.inr ((lexLe_cons_iff y x ys xs).mpr (Or.inr ⟨h.symm, h2⟩))
      · exact Or.inr ((lexLe_cons_iff y x ys xs).mpr (Or.inl h))

theorem lexLe_trans :
    ∀ (a b c : List Char), lexLe a b = true → lexLe b c = true → lexLe a c = true
  | [], _, _, _, _ => rfl
  | _ :: _, [], _, hab, _ => by simp [lexLe] at hab
  | _ :: _, _ :: _, [], _, hbc => by simp [lexLe] at hbc
  | x :: xs, y :: ys, z :: zs, hab, hbc => by
      rcases (lexLe_cons_iff x y xs ys).mp hab with h1 | ⟨h1, h1'⟩ <;>
        rcases (lexLe_cons_iff y z ys zs).mp hbc with h2 | ⟨h2, h2'⟩
      · exact (lexLe_cons_iff x z xs zs).mpr (Or.inl (Nat.lt_trans h1 h2))
      · exact (lexLe_cons_iff x z xs zs).mpr (Or.inl (h2 ▸ h1))
      · exact (lexLe_cons_iff x z xs zs).mpr (Or.inl (h1 ▸ h2))
      · exact (lexLe_cons_iff x z xs zs).mpr
          (Or.inr ⟨h1.trans h2, lexLe_trans xs ys zs h1' h2'⟩)

theorem keeper_spec_counts (report : DetailedConflictReport) (m : String)
    (mods : List ModuleInfo) (h : package_counts report m ≠ []) :
    keeperFor report m mods ∈ (package_counts report m).map Prod.fst
      ∧ ∀ k ∈ (package_counts report m).map Prod.fst,
          countOf (package_counts report m) k
            ≤ countOf (package_counts report m) (keeperFor report m mods) := by
  haveI hTot : IsTotal String (fun a b =>
      countOf (package_counts report m) b ≤ countOf (package_counts report m) a) :=
    ⟨fun a b => (Nat.le_total (countOf (package_counts report m) b)
      (countOf (package_counts report m) a))⟩
  haveI hTrans : IsTrans String (fun a b =>
      countOf (package_counts report m) b ≤ countOf (package_counts report m) a) :=
    ⟨fun _ _ _ hab hbc => Nat.le_trans hbc hab⟩
  have hsorted := List.sorted_insertionSort (fun a b =>
      countOf (package_counts report m) b ≤ countOf (package_counts report m) a)
    ((package_counts report m).map Prod.fst)
  have hperm := List.perm_insertionSort (fun a b =>
      countOf (package_counts report m) b ≤ countOf (package_counts report m) a)
    ((package_counts report m).map Prod.fst)
  have hgp : get_preferred_packages m report
      = List.insertionSort (fun a b =>
          countOf (package_counts report m) b ≤ countOf (package_counts report m) a)
        ((package_counts report m).map Prod.fst) := rfl
  cases hs : List.insertionSort (fun a b =>
      countOf (package_counts report m) b ≤ countOf (package_counts report m) a)
    ((package_counts report m).map Prod.fst) with
  | nil =>
      rw [hs] at hperm
      have : (package_counts report m).map Prod.fst = [] := hperm.symm.eq_nil
      exact absurd (List.map_eq_nil.mp this) h
  | cons p t =>
      have hk : keeperFor report m mods = p := by
        unfold keeperFor
        rw [hgp, hs]
      rw [hs] at hperm hsorted
      constructor
      · rw [hk]
        exact hperm.mem_iff.mp (by simp)
      · intro k hkmem
        have hk2 : k ∈ p :: t := hperm.symm.mem_iff.mp hkmem
        rw [hk]
        rcases List.mem_cons.mp hk2 with h | h
        · exact h ▸ Nat.le_refl _
        · exact (List.sorted_cons.mp hsorted).1 k h

theorem keeper_spec_fallback (report : DetailedConflictReport) (m : String)
    (mods : List ModuleInfo) (hc : package_counts report m = []) (hmods : mods ≠ []) :
    keeperFor report m mods ∈ mods.map (fun mi => mi.package.name)
      ∧ ∀ n ∈ mods.map (fun mi => mi.package.name),
          strLe (keeperFor report m mods) n = true := by
  haveI hTot : IsTotal String (fun a b => strLe a b = true) :=
    ⟨fun a b => lexLe_total a.data b.data⟩
  haveI hTrans : IsTrans String (fun a b => strLe a b = true) :=
    ⟨fun a b c => lexLe_trans a.data b.data c.data⟩
  have hgp : get_preferred_packages m report = [] := by
    unfold get_preferred_packages
    rw [hc]
    rfl
  have hsorted := List.sorted_insertionSort (fun a b => strLe a b = true)
    (mods.map (fun mi => mi.package.name))
  have hperm := List.perm_insertionSort (fun a b => strLe a b = true)
    (mods.map (fun mi => mi.package.name))
  cases hs : List.insertionSort (fun a b => strLe a b = true)
      (mods.map (fun mi => mi.package.name)) with
  | nil =>
      rw [hs] at hperm
      have h2 : mods.map (fun mi => mi.package.name) = [] := hperm.symm.eq_nil
      exact absurd (List.map_eq_nil.mp h2) hmods
  | cons p t =>
      have hk : keeperFor report m mods = p := by
        unfold keeperFor
        rw [hgp, hs]
        rfl
      rw [hs] at hperm hsorted
      constructor
      · rw [hk]
        exact hperm.mem_iff.mp (by simp)
      · intro n hn
        have hn2 : n ∈ p :: t := hperm.symm.mem_iff.mp hn
        rw [hk]
        rcases List.mem_cons.mp hn2 with h | h
        · rw [h]
          exact (lexLe_total p.data p.data).elim id id
        · exact (List.sorted_cons.mp hsorted).1 n h

theorem entryActions_module_name (report : DetailedConflictReport)
    (e : String × List ModuleInfo) : ∀ a ∈ entryActions report e, a.module_name = e.1 := by
  intro a ha
  unfold entryActions at ha
  by_cases h1 : e.2.length ≤ 1
  · rw [if_pos h1] at ha
    simp at ha
  · rw [if_neg h1] at ha
    by_cases h2 : should_use_shim e.1 report
    · rw [if_pos h2] at ha
      rcases List.mem_map.mp ha with ⟨mi, _, hmi⟩
      rw [← hmi]
      rfl
    · rw [if_neg h2] at ha
      by_cases h3 : should_use_version_constraint e.1 report
      · rw [if_pos h3] at ha
        rcases List.mem_map.mp ha with ⟨mi, _, hmi⟩
        rw [← hmi]
        rfl
      · rw [if_neg h3] at ha
        rcases List.mem_map.mp ha with ⟨mi, _, hmi⟩
        rw [← hmi]
        rfl

theorem entriesActions_filter_not_mem (report : DetailedConflictReport)
    (l : List (String × List ModuleInfo)) (m : String) (hm : m ∉ l.map Prod.fst) :
    (entriesActions report l).filter (fun a => a.module_name = m) = [] := by
  induction l with
  | nil => rfl
  | cons e t ih =>
      show ((entryActions report e ++ entriesActions report t).filter
        (fun a => a.module_name = m)) = []
      rw [List.filter_append]
      have hne : ¬(e.1 = m) := fun hh => hm (by simp [hh])
      have h1 : (entryActions report e).filter (fun a => a.module_name = m) = [] := by
        rw [List.filter_eq_nil]
        intro a ha
        simp [entryActions_module_name report e a ha, hne]
      rw [h1, ih (fun hh => hm (by simp [hh]))]
      rfl

theorem entriesActions_filter_get (report : DetailedConflictReport)
    (l : List (String × List ModuleInfo)) (m : String) (mods : List ModuleInfo)
    (hnd : (l.map Prod.fst).Nodup) (hget : alGet l m = some mods) :
    (entriesActions report l).filter (fun a => a.module_name = m)
      = entryActions report (m, mods) := by
  induction l with
  | nil => simp [alGet_nil] at hget
  | cons e t ih =>
      have hndt : (t.map Prod.fst).Nodup := (List.nodup_cons.mp (by simpa using hnd)).2
      have hhead : e.1 ∉ t.map Prod.fst := (List.nodup_cons.mp (by simpa using hnd)).1
      rw [alGet_cons] at hget
      show ((entryActions report e ++ entriesActions report t).filter
        (fun a => a.module_name = m)) = _
      rw [List.filter_append]
      by_cases he : e.1 = m
      · rw [if_pos he] at hget
        have hemods : e = (m, mods) := by
          cases e with
          | mk e1 e2 =>
              injection hget with h2
              simp only at he h2
              rw [he, h2]
        have h1 : (entryActions report e).filter (fun a => a.module_name = m)
            = entryActions report e := by
          rw [List.filter_eq_self]
          intro a ha
          simp [entryActions_module_name report e a ha, he]
        have h2 : (entriesActions report t).filter (fun a => a.module_name = m) = [] :=
          entriesActions_filter_not_mem report t m (he ▸ hhead)
        rw [h1, h2, hemods, List.append_nil]
      · rw [if_neg he] at hget
        have h1 : (entryActions report e).filter (fun a => a.module_name = m) = [] := by
          rw [List.filter_eq_nil]
          intro a ha
          simp [entryActions_module_name report e a ha, he]
        rw [h1, ih hndt hget, List.nil_append]

/-- C5 (amended): for a conflicting module of MEDIUM/LOW severity
(including the stored-severity-absent default), `suggest_fixes` emits
exactly one RENAME_SHIM action — with `renamed_to =
"<packageName>.<moduleName>"` — for every **record** whose owner differs
from the keeper (so a non-keeper package owning several records of the
module receives several actions), and none for the keeper.  The keeper
is ranked by record-weighted usage frequency: each (usage text, record)
pair whose record's package name occurs in the text counts once, only
positively counted packages are ranked, and the keeper maximizes the
count; when no counts exist at all the keeper is the lexicographically
least record owner name. -/
theorem suggest_fixes_shim_spec (report : DetailedConflictReport) (m : String)
    (mods : List ModuleInfo)
    (hnd : (report.conflicts.map Prod.fst).Nodup)
    (hget : alGet report.conflicts m = some mods)
    (hsev : severityOf report m = "MEDIUM" ∨ severityOf report m = "LOW")
    (hlen : 2 ≤ mods.length) :
    (suggest_fixes report).get_actions_for_module m
        = (mods.filter (fun mi => mi.package.name ≠ keeperFor report m mods)).map
            (shimAction m)
      ∧ (∀ a ∈ (suggest_fixes report).get_actions_for_module m,
          a.fix_type = FixType.RENAME_SHIM
            ∧ alGet a.details "renamed_to" = some (a.package_name ++ "." ++ m))
      ∧ (package_counts report m = [] →
          keeperFor report m mods ∈ mods.map (fun mi => mi.package.name)
            ∧ ∀ n ∈ mods.map (fun mi => mi.package.name),
                strLe (keeperFor report m mods) n = true)
      ∧ (package_counts report m ≠ [] →
          keeperFor report m mods ∈ (package_counts report m).map Prod.fst
            ∧ ∀ k ∈ (package_counts report m).map Prod.fst,
                countOf (package_counts report m) k
                  ≤ countOf (package_counts report m) (keeperFor report m mods)) := by
  have hshim : should_use_shim m report = true := by
    unfold should_use_shim
    rcases hsev with h | h <;> simp [h]
  have hlen1 : ¬((m, mods).2.length ≤ 1) := by
    simp only
    omega
  have hactions : (suggest_fixes report).get_actions_for_module m
      = (mods.filter (fun mi => mi.package.name ≠ keeperFor report m mods)).map
          (shimAction m) := by
    unfold FixPlan.get_actions_for_module
    rw [suggest_fixes_actions, entriesActions_filter_get report _ m mods hnd hget]
    unfold entryActions
    rw [if_neg hlen1, if_pos hshim]
  refine ⟨hactions, ?_, ?_, ?_⟩
  · intro a ha
    rw [hactions] at ha
    rcases List.mem_map.mp ha with ⟨mi, _, hmi⟩
    rw [← hmi]
    exact ⟨rfl, rfl⟩
  · intro hc
    have hmods : mods ≠ [] := by
      intro hh
      rw [hh] at hlen
      simp at hlen
    exact keeper_spec_fallback report m mods hc hmods
  · intro hc
    exact keeper_spec_counts report m mods hc

/-- Witness for C5 at a report whose single usage-site text mentions
`beta`, making `beta` the frequency keeper, with one shim action emitted
for `alpha`. -/
theorem suggest_fixes_shim_spec_witness :
    (suggest_fixes reportShimFreq).get_actions_for_module "utils"
        = ([recA, recB].filter (fun mi =>
            mi.package.name ≠ keeperFor reportShimFreq "utils" [recA, recB])).map
            (shimAction "utils")
      ∧ (∀ a ∈ (suggest_fixes reportShimFreq).get_actions_for_module "utils",
          a.fix_type = FixType.RENAME_SHIM
            ∧ alGet a.details "renamed_to" = some (a.package_name ++ "." ++ "utils"))
      ∧ (package_counts reportShimFreq "utils" = [] →
          keeperFor reportShimFreq "utils" [recA, recB]
              ∈ [recA, recB].map (fun mi => mi.package.name)
            ∧ ∀ n ∈ [recA, recB].map (fun mi => mi.package.name),
                strLe (keeperFor reportShimFreq "utils" [recA, recB]) n = true)
      ∧ (package_counts reportShimFreq "utils" ≠ [] →
          keeperFor reportShimFreq "utils" [recA, recB]
              ∈ (package_counts reportShimFreq "utils").map Prod.fst
            ∧ ∀ k ∈ (package_counts reportShimFreq "utils").map Prod.fst,
                countOf (package_counts reportShimFreq "utils") k
                  ≤ countOf (package_counts reportShimFreq "utils")
                      (keeperFor reportShimFreq "utils" [recA, recB])) :=
  suggest_fixes_shim_spec reportShimFreq "utils" [recA, recB]
    (by decide) (by decide) (Or.inl (by decide)) (by decide)

/-- C5 counterexample: with no usage data the keeper is the
lexicographically least owner `alpha`, and the non-keeper package `beta`
— which owns two records of `utils` — receives **two** RENAME_SHIM
actions, refuting "exactly one RENAME_SHIM action per other owning
package". -/
theorem rename_shim_per_record_counterexample :
    (suggest_fixes reportShimDup).actions.map (fun a => (a.fix_type, a.package_name))
        = [(FixType.RENAME_SHIM, "beta"), (FixType.RENAME_SHIM, "beta")]
      ∧ (((alGet reportShimDup.conflicts "utils").getD []).map
          (fun mi => mi.package.name)).dedup = ["alpha", "beta"] :=
  ⟨by decide, by decide⟩

/-! ### Transitive dependency traversal (claim C2)

`PackageInfo` carries no `__hash__` (a non-frozen `eq=True` dataclass),
so `result.add(dep.package)` in `get_all_dependencies` raises
`TypeError` the first time the walk expands a node that has any
dependency.  The lemmas below show the modelled function can only raise
(`none`) or return the empty set, and that it raises at the
repository's own test fixture, where `tests/test_dependency_graph.py`
asserts a three-element result. -/

theorem addDepsPkgs_eq_some {g : DependencyGraph} :
    ∀ (deps : List String) (res res2 : List PackageInfo),
      addDepsPkgs g deps res = some res2 → res2 = res := by
  intro deps
  induction deps with
  | nil =>
      intro res res2 h
      injection h with h2
      exact h2.symm
  | cons d t ih =>
      intro res res2 h
      unfold addDepsPkgs at h
      cases hd : g.pkgOf d with
      | some p =>
          rw [hd] at h
          exact Option.noConfusion h
      | none =>
          rw [hd] at h
          exact ih res res2 h

theorem walk_nil (g : DependencyGraph) (vis : List String) (res : List PackageInfo) :
    walk g [] vis res = some res := by
  rw [walk]

theorem walk_visited {g : DependencyGraph} {n : String} {vis : List String}
    (st : List String) (res : List PackageInfo) (hn : n ∈ vis) :
    walk g (n :: st) vis res = walk g st vis res := by
  rw [walk]
  simp [hn]

theorem walk_missing {g : DependencyGraph} {n : String} {vis : List String}
    (st : List String) (res : List PackageInfo) (hn : n ∉ vis)
    (hf : g.findNode n = none) :
    walk g (n :: st) vis res = walk g st (n :: vis) res := by
  rw [walk, if_neg hn]
  split
  · rfl
  · rename_i nd heq
    rw [hf] at heq
    cases heq

theorem walk_crash (g : DependencyGraph) (n : String) (vis st : List String)
    (res : List PackageInfo) (nd : DependencyNode) (hn : n ∉ vis)
    (hf : g.findNode n = some nd) (hadd : addDepsPkgs g nd.dependencies res = none) :
    walk g (n :: st) vis res = none := by
  rw [walk, if_neg hn]
  split
  · rename_i heq
    rw [hf] at heq
    cases heq
  · rename_i nd' heq
    rw [hf] at heq
    injection heq with h2
    rw [← h2, hadd]

theorem walk_expand {g : DependencyGraph} {n : String} {vis : List String}
    (st : List String) (res : List PackageInfo) {nd : DependencyNode}
    {res2 : List PackageInfo} (hn : n ∉ vis) (hf : g.findNode n = some nd)
    (hadd : addDepsPkgs g nd.dependencies res = some res2) :
    walk g (n :: st) vis res
      = walk g ((nd.dependencies.filter (fun d => ¬ d ∈ n :: vis)).reverse ++ st)
          (n :: vis) res2 := by
  rw [walk, if_neg hn]
  split
  · rename_i heq
    rw [hf] at heq
    cases heq
  · rename_i nd' heq
    rw [hf] at heq
    injection heq with h2
    rw [← h2, hadd]

theorem walk_none_or_empty (g : DependencyGraph) :
    ∀ (st vis : List String) (res : List PackageInfo), res = [] →
      walk g st vis res = none ∨ walk g st vis res = some [] := by
  intro st vis res
  induction st, vis, res using walk.induct g with
  | case1 vis res =>
      intro h
      rw [walk_nil, h]
      exact Or.inr rfl
  | case2 n st vis res hn ih =>
      intro h
      rw [walk_visited st res hn]
      exact ih h
  | case3 n st vis res hn hfound ih =>
      intro h
      rw [walk_missing st res hn hfound]
      exact ih h
  | case4 n st vis res hn nd hfound hadd =>
      intro h
      rw [walk_crash g n vis st res nd hn hfound hadd]
      exact Or.inl rfl
  | case5 n st vis res hn nd hfound res2 hadd ih =>
      intro h
      rw [walk_expand st res hn hfound hadd]
      exact ih (by rw [addDepsPkgs_eq_some nd.dependencies res res2 hadd, h])

/-- C2: code bug.  The claim describes the intended behaviour — the
repository's own test builds root-project → package1/package2 and
package1 → package3 and asserts that `get_all_dependencies` of the root
returns three packages — but the code cannot produce it: `PackageInfo`
is a non-frozen `eq=True` dataclass, hence unhashable, and
`result.add(dep.package)` raises `TypeError` at the first dependency
edge the walk expands.  So on every graph and start name the function
either raises (modelled `none`) or returns the empty set; in
particular it raises at the test fixture's input, and an unknown name
returns the empty set. -/
theorem get_all_dependencies_raises_type_error :
    (∀ (g : DependencyGraph) (package_name : String),
        g.get_all_dependencies package_name = none
          ∨ g.get_all_dependencies package_name = some [])
      ∧ simpleGraph.get_all_dependencies "root-project" = none
      ∧ (DependencyGraph.mk []).get_all_dependencies "root-project" = some [] := by
  refine ⟨?_, ?_, ?_⟩
  · intro g package_name
    unfold DependencyGraph.get_all_dependencies
    by_cases hx : g.hasNode package_name
    · rw [if_pos hx]
      exact walk_none_or_empty g [package_name] [] [] rfl
    · rw [if_neg hx]
      exact Or.inr rfl
  · show (if simpleGraph.hasNode "root-project" then walk simpleGraph ["root-project"] [] []
        else some []) = none
    rw [if_pos (by decide)]
    exact walk_crash simpleGraph "root-project" [] []
      [] (DependencyNode.mk pkgRoot ["package1", "package2"]) (by decide) (by decide)
      (by decide)
  · rfl

end ModGuard
